import Mathlib

/-!
Verification of the recursive object-storage sync engine of the
`opensource_imagery_pipeline` repository: a shallow embedding of the two
structurally-identical download clients
(`src/common/aws_s3_download.py`, class `S3Download`, and
`src/common/google_download.py`, class `GoogleStorageDownload`)
together with proofs about the embedded operations.

Strings are modelled as `List Char` (Python `str` on these code paths is
plain ASCII path text).  All host behaviour is modelled for a POSIX
platform (`sys.platform = 'linux'`), which is the platform every
`sys.platform.lower().startswith('win')` test in the source selects
against; the Windows branches are therefore not part of the model.
-/

set_option autoImplicit false

/-! ### Python string primitives -/

/-- Python `s.replace(old, new)` with fuel: scans left to right, replacing
every non-overlapping occurrence of `old`.  The `old ≠ []` guard makes the
empty pattern a no-op, which agrees with Python exactly when `new = []`
(`s.replace('', '') == s`); the sources only ever replace by `''`. -/
def pyReplaceF (old new : List Char) : Nat → List Char → List Char
  | _, [] => []
  | 0, s => s
  | fuel+1, c :: rest =>
    if old ≠ [] ∧ old.isPrefixOf (c :: rest) = true then
      new ++ pyReplaceF old new fuel ((c :: rest).drop old.length)
    else
      c :: pyReplaceF old new fuel rest

/-- Python `s.replace(old, new)` (see `pyReplaceF`; the fuel `s.length`
never runs out because each step consumes at least one character). -/
def pyReplace (old new s : List Char) : List Char :=
  pyReplaceF old new s.length s

/-- Whether `pat` occurs in `s` as a contiguous substring (Python `pat in s`). -/
def hasSub (pat : List Char) : List Char → Bool
  | [] => pat.isEmpty
  | c :: rest => pat.isPrefixOf (c :: rest) || hasSub pat rest

/-- Python `s.split(sep)` for a single-character separator: the list of
maximal separator-free chunks, including empty ones (never `[]` itself). -/
def pySplit (sep : Char) : List Char → List (List Char)
  | [] => [[]]
  | c :: rest =>
    if c = sep then [] :: pySplit sep rest
    else
      match pySplit sep rest with
      | [] => [[c]]
      | g :: gs => (c :: g) :: gs

/-- Last element of a list of chunks, with default `d` (Python `xs[-1]`
on the never-empty result of `str.split`). -/
def lastD (d : List Char) : List (List Char) → List Char
  | [] => d
  | [x] => x
  | _ :: x :: xs => lastD d (x :: xs)

/-- Python `s.split(sep)[0]`. -/
def firstSeg (sep : Char) (s : List Char) : List Char :=
  (pySplit sep s).headD []

/-- Python `s.split(sep)[-1]`. -/
def lastSeg (sep : Char) (s : List Char) : List Char :=
  lastD [] (pySplit sep s)

/-! ### PathResolver: the two locator parsers -/

/-- `S3Download._s3_path_parser` (src/common/aws_s3_download.py:66-82):
```
if s3_path.startswith('s3://'):
    s3_path = s3_path.replace('s3://', '')
bucket_name = s3_path.split('/')[0]
tail = s3_path.replace('{}/'.format(bucket_name), '')
return dict(bucket_name=bucket_name, object_name=tail)
```
The result is the `(bucket_name, object_name)` pair.  (The non-`str`
input branch only logs and falls through; inputs here are strings.) -/
def s3ParsePath (s3_path : List Char) : List Char × List Char :=
  let p := if "s3://".data.isPrefixOf s3_path then pyReplace "s3://".data [] s3_path else s3_path
  let bucket_name := firstSeg '/' p
  let tail := pyReplace (bucket_name ++ ['/']) [] p
  (bucket_name, tail)

/-- `GoogleStorageDownload._parse_gs_path` (src/common/google_download.py:34-57):
returns `(None, None)` — modelled as `none` — unless the path starts with
`gs://`; otherwise strips the marker with `str.replace` and splits off the
bucket name exactly like the S3 parser.  (The `try/except` around the
second `replace` can never fire for a `str`.) -/
def parseGsPath (gs_path : List Char) : Option (List Char × List Char) :=
  if "gs://".data.isPrefixOf gs_path then
    let p := pyReplace "gs://".data [] gs_path
    let bucket_name := firstSeg '/' p
    some (bucket_name, pyReplace (bucket_name ++ ['/']) [] p)
  else
    none

/-! ### POSIX path primitives used by the PathMapper

`os.path` on the modelled host is `posixpath`; the following definitions
are translations of the CPython `posixpath` functions the sources call. -/

/-- `posixpath.dirname(p)`: everything up to the last `'/'`
(`head = p[:p.rfind('/') + 1]`), with trailing slashes stripped unless
`head` consists only of slashes. -/
def dirname (p : List Char) : List Char :=
  let head := ((p.reverse.dropWhile (fun c => c != '/')).reverse)
  if head ≠ [] ∧ head.all (fun c => c == '/') = false then
    (head.reverse.dropWhile (fun c => c == '/')).reverse
  else head

/-- `posixpath.join(a, b)` for two components:
`b` if `b` is absolute; `a + b` if `a` is empty or ends in `'/'`;
otherwise `a + '/' + b`. -/
def joinPath (a b : List Char) : List Char :=
  if b.headD ' ' = '/' then b
  else if a = [] ∨ a.getLast? = some '/' then a ++ b
  else a ++ '/' :: b

/-- `posixpath.normpath(p)`: collapse repeated separators and `.`/`..`
components, preserving a doubled (but not tripled) leading slash. -/
def normpath (p : List Char) : List Char :=
  if p = [] then ['.']
  else
    let initialSlashes : Nat :=
      if ['/', '/'].isPrefixOf p ∧ ¬ (['/', '/', '/'].isPrefixOf p = true) then 2
      else if ['/'].isPrefixOf p then 1 else 0
    let newComps := (pySplit '/' p).foldl
      (fun acc comp =>
        if comp = [] ∨ comp = ['.'] then acc
        else if comp ≠ ['.', '.'] ∨ (initialSlashes = 0 ∧ acc = []) ∨
                acc.getLast? = some ['.', '.'] then acc ++ [comp]
        else if acc ≠ [] then acc.dropLast else acc) []
    let out := List.replicate initialSlashes '/' ++ List.intercalate ['/'] newComps
    if out = [] then ['.'] else out

/-- `os.path.expanduser(p)`: the identity unless `p` begins with `'~'`;
tilde expansion reads the process environment, modelled by `env`. -/
def expanduser (env : List Char → List Char) (p : List Char) : List Char :=
  if p.headD ' ' = '~' then env p else p

/-- `S3Download._standardize_dir_path` / `GoogleStorageDownload._normalize_dir_path`
(non-Windows branch): append `'/'` when the directory string does not
already end with it. -/
def standardizeDirPath (dir_path : List Char) : List Char :=
  if dir_path.getLast? = some '/' then dir_path else dir_path ++ ['/']

/-- `S3Download._make_local_path` (src/common/aws_s3_download.py:227-268)
and the identical `GoogleStorageDownload._make_local_path`
(src/common/google_download.py:248-289), non-Windows branch:
```
filename = object_name.split('/')[-1]
dst_path_tail = object_name.replace(prefix_to_replace, '')
if dst_path_tail.startswith('/'):
    dst_path_tail = dst_path_tail[1:]
base_dst_dir = self._standardize_dir_path(base_dst_dir)
base_dst_dir = os.path.expanduser(os.path.normpath(base_dst_dir))
dst_dir = os.path.join(base_dst_dir, os.path.dirname(dst_path_tail))
... os.makedirs(dst_dir) ...
dst_path = os.path.join(dst_dir, filename)
return dst_path
```
`os.makedirs` is a filesystem side effect that does not change the
returned path; its failure branch (returning `None`) is not modelled.
The binder `prefToReplace` stands for the source's second parameter. -/
def makeLocalPath (env : List Char → List Char)
    (object_name prefToReplace base_dst_dir : List Char) : List Char :=
  let filename := lastSeg '/' object_name
  let tail0 := pyReplace prefToReplace [] object_name
  let tail := if tail0.headD ' ' = '/' then tail0.tail else tail0
  let base := expanduser env (normpath (standardizeDirPath base_dst_dir))
  let dst_dir := joinPath base (dirname tail)
  joinPath dst_dir filename

/-! ### Local filesystem state

The download operations observe and mutate the local filesystem only
through `os.path.exists`, writes, `os.rename` and `os.remove`.  The
filesystem is modelled as a finite map from paths to abstract file
contents (`Nat`).  `os.rename` and `os.remove` on an existing regular
file succeed on the modelled host. -/

/-- Local filesystem: association list mapping existing paths to contents. -/
abbrev FS := List (List Char × Nat)

/-- Content stored at `p`, if the path exists. -/
def fsGet (p : List Char) : FS → Option Nat
  | [] => none
  | (q, v) :: fs => if p = q then some v else fsGet p fs

/-- `os.path.exists(p)`. -/
def fsEx (p : List Char) (fs : FS) : Bool :=
  (fsGet p fs).isSome

/-- Write content `v` at path `p` (creating or overwriting). -/
def fsSet (p : List Char) (v : Nat) : FS → FS
  | [] => [(p, v)]
  | (q, w) :: fs => if p = q then (p, v) :: fs else (q, w) :: fsSet p v fs

/-- `os.remove(p)`. -/
def fsRemove (p : List Char) : FS → FS
  | [] => []
  | (q, w) :: fs => if p = q then fsRemove p fs else (q, w) :: fsRemove p fs

/-- `os.rename(src, dst)`: move the file at `src` to `dst`, replacing any
file already at `dst`. -/
def fsRename (src dst : List Char) (fs : FS) : FS :=
  match fsGet src fs with
  | some v => fsSet dst v (fsRemove src fs)
  | none => fs

/-! ### Per-task download operations (`_download`) -/

/-- Terminal state of one download task (spec section 4.5). -/
inductive TaskOutcome where
  | skippedExists
  | completed
  | failed
  deriving DecidableEq, Repr

/-- Outcome of one `self._bucket.download_file(src_key, dst_path)` call:
either the object bytes `v` are written to `dst_path`, or one of the
caught exception classes is raised (`IOError`, a 404 `ClientError`,
another `ClientError`, or any other exception). -/
inductive S3Fetch where
  | ok (v : Nat)
  | ioError
  | notFound404
  | clientOther
  | otherExc
  deriving DecidableEq, Repr

/-- `S3Download._download` (src/common/aws_s3_download.py:84-111): skip
when the destination exists and `overwrite` is false; otherwise fetch
directly to the destination path; every raised exception is caught and
logged.  Result: new filesystem, the task's terminal state, and whether a
backend fetch was attempted.  (Partial bytes left by a failed direct
write are not modelled; no claim depends on them.) -/
def s3DownloadStep (fetch : S3Fetch) (fs : FS) (src_key dst_path : List Char)
    (overwrite : Bool) : FS × TaskOutcome × Bool :=
  if overwrite = false ∧ fsEx dst_path fs = true then
    (fs, .skippedExists, false)
  else
    match fetch with
    | .ok v => (fsSet dst_path v fs, .completed, true)
    | .ioError => (fs, .failed, true)
    | .notFound404 => (fs, .failed, true)
    | .clientOther => (fs, .failed, true)
    | .otherExc => (fs, .failed, true)

/-- Outcome of one `self.bucket.blob(blob_name).download_to_filename(tmp)`
call: either the blob bytes `v` land fully in `tmp` (and the subsequent
`os.rename` succeeds), or an exception is raised after writing either
partial bytes `some w` or nothing (`none`) to `tmp`. -/
inductive GsFetch where
  | ok (v : Nat)
  | fail (tempBytes : Option Nat)
  deriving DecidableEq, Repr

/-- The temporary sibling path `'{}.000'.format(dst_file_path)` used by
`GoogleStorageDownload._download`. -/
def gsTempPath (dst_file_path : List Char) : List Char :=
  dst_file_path ++ ".000".data

/-- `GoogleStorageDownload._download` (src/common/google_download.py:112-149):
skip when the destination exists and `overwrite` is false; otherwise
download to the temporary sibling path, rename it onto the destination on
success, catch and log every exception, and finally remove the temporary
path if it still exists. -/
def gsDownloadStep (fetch : GsFetch) (fs : FS) (blob_name dst_file_path : List Char)
    (overwrite : Bool) : FS × TaskOutcome × Bool :=
  if overwrite = false ∧ fsEx dst_file_path fs = true then
    (fs, .skippedExists, false)
  else
    let tmp := gsTempPath dst_file_path
    let fs1 := match fetch with
      | .ok v => fsRename tmp dst_file_path (fsSet tmp v fs)
      | .fail (some w) => fsSet tmp w fs
      | .fail none => fs
    let fs2 := if fsEx tmp fs1 = true then fsRemove tmp fs1 else fs1
    (fs2, (match fetch with | .ok _ => .completed | .fail _ => .failed), true)

/-! ### ObjectFilter -/

/-- One S3 listing entry as built by `S3Download._list_objects`
(`{'bucket_name': .., 'object_name': .., 'size': ..}`). -/
structure S3Key where
  bucketName : List Char
  objectName : List Char
  size : Nat
  deriving DecidableEq, Repr

/-- One Google Storage blob as observed by the listing/filter code
(attributes `name` and `size`). -/
structure Blob where
  name : List Char
  size : Nat
  deriving DecidableEq, Repr

/-- A compiled regular-expression pattern, modelled by its
`re.search`-semantics acceptance function on object names:
`m s = true` iff `re.compile(pat).search(s)` is not `None`. -/
abbrev Matcher := List Char → Bool

/-- `S3Download._filter_object_names` (src/common/aws_s3_download.py:158-176):
keep keys whose name the include pattern matches, then drop keys whose
name the exclude pattern matches. -/
def filterObjectNames (keys : List S3Key) (includePat excludePat : Option Matcher) :
    List S3Key :=
  let keys := match includePat with
    | some m => keys.filter (fun k => m k.objectName)
    | none => keys
  match excludePat with
  | some m => keys.filter (fun k => !(m k.objectName))
  | none => keys

/-- `GoogleStorageDownload._filter_blob_names` (src/common/google_download.py:200-217),
identical logic over blob `.name`. -/
def filterBlobNames (blobs : List Blob) (includePat excludePat : Option Matcher) :
    List Blob :=
  let blobs := match includePat with
    | some m => blobs.filter (fun b => m b.name)
    | none => blobs
  match excludePat with
  | some m => blobs.filter (fun b => !(m b.name))
  | none => blobs

/-- Models `re.search(r'\.tif$', name) is not None`. -/
def matchDotTifEnd : Matcher := fun s => ".tif".data.isSuffixOf s

/-- Models `re.search(r'^a', name) is not None`. -/
def matchCaretA : Matcher := fun s => "a".data.isPrefixOf s

/-! ### Listing -/

/-- `S3Download._list_objects` composed with the surrounding `list`
entry point (src/common/aws_s3_download.py:141-156 and 178-210), given
the backend's response `backend` (`self._bucket.objects.filter(...)`
either yields the key list or raises): a raised exception is caught,
logged and turned into `None`, which `list` propagates; otherwise `list`
applies the name filter when a pattern was given.  (Connection and bucket
resolution succeed; `s3_path` parsing feeds only the listing prefix,
which the backend response already reflects.) -/
def s3List (backend : Except Unit (List S3Key))
    (includePat excludePat : Option Matcher) : Option (List S3Key) :=
  match backend with
  | .error _ => none
  | .ok keys =>
    some (if includePat.isSome || excludePat.isSome
          then filterObjectNames keys includePat excludePat else keys)

/-- `GoogleStorageDownload._list` composed with `list`
(src/common/google_download.py:174-198 and 219-246): parse the path
(requiring the `gs://` marker and a non-empty blob prefix), then either
propagate the backend listing failure as `None` or filter and return the
blobs. -/
def gsListRun (backend : Except Unit (List Blob)) (gs_path : List Char)
    (includePat excludePat : Option Matcher) : Option (List Blob) :=
  match parseGsPath gs_path with
  | none => none
  | some (_, blobPre) =>
    if blobPre = [] then none
    else
      match backend with
      | .error _ => none
      | .ok blobs =>
        some (if includePat.isSome || excludePat.isSome
              then filterBlobNames blobs includePat excludePat else blobs)

/-! ### DownloadScheduler -/

/-- One `(src_key, dst_path, overwrite)` tuple appended to `download_args`. -/
structure DlTask where
  src : List Char
  dst : List Char
  overwrite : Bool
  deriving DecidableEq, Repr

/-- `pool.map(self._download, download_args)` for the S3 client with the
source's `NUM_PROC = 1`: the pre-built task list is consumed in order,
one `_download` call per task; `fetch` gives the backend's response for
each `(src, dst)` pair.  Returns the final filesystem and the per-task
terminal states. -/
def runPool (fetch : List Char → List Char → S3Fetch) (fs : FS) :
    List DlTask → FS × List TaskOutcome
  | [] => (fs, [])
  | t :: ts =>
    let r := s3DownloadStep (fetch t.src t.dst) fs t.src t.dst t.overwrite
    let rest := runPool fetch r.1 ts
    (rest.1, r.2.1 :: rest.2)

/-! ### recursive_download -/

/-- A Python argument that is either a `str` or some non-string value
(`recursive_download` type-checks `base_dst_dir` and `prefix_to_replace`
dynamically). -/
inductive PyArg where
  | str (s : List Char)
  | nonStr
  deriving DecidableEq, Repr

/-- Observable result of one `recursive_download` call. -/
structure RecResult where
  /-- The "Invalid input types!" error record was emitted. -/
  invalidInputLogged : Bool
  /-- `self.list(...)` was invoked, i.e. the backend listing call was reached. -/
  listingAttempted : Bool
  /-- The `download_args` list handed to the thread pool. -/
  tasks : List DlTask
  /-- Terminal states of the pool's tasks, in order. -/
  outcomes : List TaskOutcome
  /-- Filesystem after the call. -/
  finalFs : FS
  /-- An exception escaped `recursive_download` (e.g. `AttributeError`
  from calling `.endswith` on a non-string destination directory). -/
  raised : Bool
  deriving DecidableEq, Repr

/-- `S3Download.recursive_download` (src/common/aws_s3_download.py:270-316).
The opening type check only logs — it does not return — so `self.list`
is reached unconditionally.  A `None` or empty listing logs and returns.
Otherwise `key_prefix` is `prefix_to_replace` when that is truthy, else
the parsed object prefix; per key a destination is built (with
`folder_map` true via `_make_local_path`, else flat into the base
directory) and the pool runs the tasks.  A non-string `base_dst_dir`
(or, with `folder_map`, a non-string truthy `prefix_to_replace`) raises
uncaught on the first key, before any task is scheduled. -/
def s3RecursiveDownload (env : List Char → List Char)
    (backend : Except Unit (List S3Key))
    (fetch : List Char → List Char → S3Fetch)
    (s3_path : List Char) (base_dst_dir : PyArg) (folder_map overwrite : Bool)
    (prefToReplace : Option PyArg)
    (includePat excludePat : Option Matcher) (fs : FS) : RecResult :=
  let bad := (base_dst_dir = .nonStr) ∨ (prefToReplace = some .nonStr)
  let keys := s3List backend includePat excludePat
  match keys with
  | none =>
    ⟨bad, true, [], [], fs, false⟩
  | some keys =>
    if keys.length = 0 then
      ⟨bad, true, [], [], fs, false⟩
    else
      match base_dst_dir with
      | .nonStr => ⟨bad, true, [], [], fs, true⟩
      | .str base =>
        if prefToReplace = some .nonStr ∧ folder_map = true then
          ⟨bad, true, [], [], fs, true⟩
        else
          let parsed := s3ParsePath s3_path
          let key_prefix := match prefToReplace with
            | some (.str p) => if p = [] then parsed.2 else p
            | _ => parsed.2
          let tasks := keys.map (fun k =>
            if folder_map then
              ⟨k.objectName, makeLocalPath env k.objectName key_prefix base, overwrite⟩
            else
              (⟨k.objectName,
                joinPath (expanduser env (normpath base)) (lastSeg '/' k.objectName),
                overwrite⟩ : DlTask))
          let run := runPool fetch fs tasks
          ⟨bad, true, tasks, run.2, run.1, false⟩

/-- `GoogleStorageDownload.recursive_download`
(src/common/google_download.py:291-330): same pipeline, but with no type
check at all on `base_dst_dir`/`prefix_to_replace`, and `self.list`
called first.  The per-task fetch outcome is converted by
`gsDownloadStep`; `gsFetch` gives the backend's response per
`(blob, dst)`. -/
def gsRecursiveDownload (env : List Char → List Char)
    (backend : Except Unit (List Blob))
    (gsFetch : List Char → List Char → GsFetch)
    (gs_path : List Char) (base_dst_dir : PyArg) (folder_map overwrite : Bool)
    (prefToReplace : Option PyArg)
    (includePat excludePat : Option Matcher) (fs : FS) : RecResult :=
  let blobs := gsListRun backend gs_path includePat excludePat
  match blobs with
  | none =>
    ⟨false, true, [], [], fs, false⟩
  | some blobs =>
    if blobs.length = 0 then
      ⟨false, true, [], [], fs, false⟩
    else
      match base_dst_dir with
      | .nonStr => ⟨false, true, [], [], fs, true⟩
      | .str base =>
        if prefToReplace = some .nonStr ∧ folder_map = true then
          ⟨false, true, [], [], fs, true⟩
        else
          let parsed := (parseGsPath gs_path).getD ([], [])
          let blob_prefix := match prefToReplace with
            | some (.str p) => if p = [] then parsed.2 else p
            | _ => parsed.2
          let tasks := blobs.map (fun b =>
            if folder_map then
              ⟨b.name, makeLocalPath env b.name blob_prefix base, overwrite⟩
            else
              (⟨b.name,
                joinPath (expanduser env (normpath base)) (lastSeg '/' b.name),
                overwrite⟩ : DlTask))
          let run := tasks.foldl
            (fun (acc : FS × List TaskOutcome) t =>
              let r := gsDownloadStep (gsFetch t.src t.dst) acc.1 t.src t.dst t.overwrite
              (r.1, acc.2 ++ [r.2.1])) (fs, [])
          ⟨false, true, tasks, run.2, run.1, false⟩

/-! ### Container handle cache (`_get_bucket`) -/

/-- A backend container handle: the name it was created for, plus the
allocation number of the constructor call that produced it (so that
replacement by a freshly constructed handle is observable). -/
structure BucketHandle where
  name : List Char
  gen : Nat
  deriving DecidableEq, Repr

/-- Client-side cache state: the cached handle (`self._bucket` /
`self.bucket`, initially `None`) and the next allocation number. -/
structure CacheState where
  bucket : Option BucketHandle
  nextGen : Nat
  deriving DecidableEq, Repr

/-- `S3Download._get_bucket` (src/common/aws_s3_download.py:54-64):
construct a new handle exactly when none is cached or the cached one has
a different name.  (`boto3.resource.Bucket(name)` is a pure constructor;
its `except` branch is unreachable.) -/
def s3GetBucket (st : CacheState) (bucket_name : List Char) : CacheState :=
  if st.bucket.isNone ∨ st.bucket.map BucketHandle.name ≠ some bucket_name then
    ⟨some ⟨bucket_name, st.nextGen⟩, st.nextGen + 1⟩
  else st

/-- `GoogleStorageDownload._get_bucket` (src/common/google_download.py:79-95):
drop the cached handle when its name differs, then construct one when
none is cached.  (`storage.bucket.Bucket(client, name)` is a pure
constructor; the client exists.) -/
def gsGetBucket (st : CacheState) (bucket_name : List Char) : CacheState :=
  let st1 : CacheState :=
    match st.bucket with
    | some b => if b.name ≠ bucket_name then ⟨none, st.nextGen⟩ else st
    | none => st
  match st1.bucket with
  | none => ⟨some ⟨bucket_name, st1.nextGen⟩, st1.nextGen + 1⟩
  | some _ => st1

/-- Cache state after a sequence of `_get_bucket` calls. -/
def runGetBucket (step : CacheState → List Char → CacheState)
    (st : CacheState) (names : List (List Char)) : CacheState :=
  names.foldl step st

/-! ## Helper lemmas -/

theorem isPrefixOf_iff_exists {l s : List Char} :
    l.isPrefixOf s = true ↔ ∃ t, s = l ++ t := by
  induction l generalizing s with
  | nil => simp [List.isPrefixOf]
  | cons c l ih =>
    cases s with
    | nil => simp [List.isPrefixOf]
    | cons d s =>
      simp only [List.isPrefixOf, Bool.and_eq_true, beq_iff_eq, ih, List.cons_append,
        List.cons.injEq]
      constructor
      · rintro ⟨rfl, t, rfl⟩; exact ⟨t, rfl, rfl⟩
      · rintro ⟨t, rfl, rfl⟩; exact ⟨rfl, t, rfl⟩

theorem isPrefixOf_self_append (l t : List Char) : l.isPrefixOf (l ++ t) = true :=
  isPrefixOf_iff_exists.2 ⟨t, rfl⟩

theorem isSuffixOf_iff_exists {l s : List Char} :
    l.isSuffixOf s = true ↔ ∃ t, s = t ++ l := by
  simp only [List.isSuffixOf, isPrefixOf_iff_exists]
  constructor
  · rintro ⟨t, ht⟩
    refine ⟨t.reverse, ?_⟩
    have := congrArg List.reverse ht
    simpa using this
  · rintro ⟨t, rfl⟩
    exact ⟨t.reverse, by simp⟩

theorem isSuffixOf_append_self (t l : List Char) : l.isSuffixOf (t ++ l) = true :=
  isSuffixOf_iff_exists.2 ⟨t, rfl⟩

theorem isSuffixOf_append_left {l s : List Char} (t : List Char)
    (h : l.isSuffixOf s = true) : l.isSuffixOf (t ++ s) = true := by
  rcases isSuffixOf_iff_exists.1 h with ⟨u, rfl⟩
  exact isSuffixOf_iff_exists.2 ⟨t ++ u, by simp⟩

/-! pyReplace -/

theorem pyReplaceF_nil (old new : List Char) (fuel : Nat) :
    pyReplaceF old new fuel [] = [] := by
  cases fuel <;> rfl

theorem pyReplaceF_congr (old new : List Char) :
    ∀ f₁ f₂ s, s.length ≤ f₁ → s.length ≤ f₂ →
      pyReplaceF old new f₁ s = pyReplaceF old new f₂ s := by
  intro f₁
  induction f₁ with
  | zero =>
    intro f₂ s h₁ _
    have : s = [] := List.eq_nil_of_length_eq_zero (Nat.le_zero.1 h₁)
    subst this
    simp [pyReplaceF_nil]
  | succ f ih =>
    intro f₂ s h₁ h₂
    cases s with
    | nil => simp [pyReplaceF_nil]
    | cons c rest =>
      cases f₂ with
      | zero => simp at h₂
      | succ g =>
        simp only [List.length_cons] at h₁ h₂
        show pyReplaceF old new (f + 1) (c :: rest) = pyReplaceF old new (g + 1) (c :: rest)
        rw [pyReplaceF, pyReplaceF]
        by_cases hc : old ≠ [] ∧ old.isPrefixOf (c :: rest) = true
        · rw [if_pos hc, if_pos hc]
          have hold : 1 ≤ old.length := by
            cases old with
            | nil => exact absurd rfl hc.1
            | cons _ _ => simp
          have hlen : ((c :: rest).drop old.length).length ≤ f := by
            simp only [List.length_drop, List.length_cons]
            omega
          have hlen' : ((c :: rest).drop old.length).length ≤ g := by
            simp only [List.length_drop, List.length_cons]
            omega
          rw [ih _ _ hlen hlen']
        · rw [if_neg hc, if_neg hc]
          rw [ih g rest (by omega) (by omega)]

theorem pyReplace_nil (old new : List Char) : pyReplace old new [] = [] := by
  simp [pyReplace, pyReplaceF_nil]

theorem pyReplace_cons_pos {old : List Char} (new : List Char) {c : Char} {rest : List Char}
    (h1 : old ≠ []) (h2 : old.isPrefixOf (c :: rest) = true) :
    pyReplace old new (c :: rest) = new ++ pyReplace old new ((c :: rest).drop old.length) := by
  have hold : 1 ≤ old.length := by
    cases old with
    | nil => exact absurd rfl h1
    | cons _ _ => simp
  have hX : ((c :: rest).drop old.length).length ≤ rest.length := by
    simp only [List.length_drop, List.length_cons]
    omega
  show pyReplaceF old new (rest.length + 1) (c :: rest) = _
  rw [pyReplaceF, if_pos ⟨h1, h2⟩]
  show _ = new ++ pyReplaceF old new ((c :: rest).drop old.length).length
    ((c :: rest).drop old.length)
  rw [pyReplaceF_congr old new rest.length ((c :: rest).drop old.length).length
    ((c :: rest).drop old.length) hX (Nat.le_refl _)]

theorem pyReplace_cons_neg {old : List Char} (new : List Char) {c : Char} {rest : List Char}
    (h : ¬ (old ≠ [] ∧ old.isPrefixOf (c :: rest) = true)) :
    pyReplace old new (c :: rest) = c :: pyReplace old new rest := by
  show pyReplaceF old new (rest.length + 1) (c :: rest) = _
  rw [pyReplaceF, if_neg h]
  show _ = c :: pyReplaceF old new rest.length rest
  rw [pyReplaceF_congr old new rest.length rest.length rest (Nat.le_refl _) (Nat.le_refl _)]

theorem pyReplace_head {old : List Char} (new : List Char) (h : old ≠ []) (s : List Char) :
    pyReplace old new (old ++ s) = new ++ pyReplace old new s := by
  cases old with
  | nil => exact absurd rfl h
  | cons c rest =>
    rw [List.cons_append, pyReplace_cons_pos new h
      (by rw [← List.cons_append]; exact isPrefixOf_self_append _ _)]
    congr 1
    rw [← List.cons_append]
    congr 1
    exact List.drop_left _ _

/-! hasSub -/

theorem hasSub_of_isPrefixOf {pat s : List Char} (h : pat.isPrefixOf s = true) :
    hasSub pat s = true := by
  cases s with
  | nil =>
    cases pat with
    | nil => rfl
    | cons _ _ => simp [List.isPrefixOf] at h
  | cons c rest => simp [hasSub, h]

theorem hasSub_cons_of {pat : List Char} (c : Char) {rest : List Char}
    (h : hasSub pat rest = true) : hasSub pat (c :: rest) = true := by
  simp [hasSub, h]

theorem hasSub_append_left {pat rest : List Char} (l : List Char)
    (h : hasSub pat rest = true) : hasSub pat (l ++ rest) = true := by
  induction l with
  | nil => exact h
  | cons c l ih => exact hasSub_cons_of c ih

theorem pyReplace_of_not_hasSub {old : List Char} (new : List Char) {s : List Char}
    (h : hasSub old s = false) : pyReplace old new s = s := by
  induction s with
  | nil => exact pyReplace_nil _ _
  | cons c rest ih =>
    simp only [hasSub, Bool.or_eq_false_iff] at h
    rw [pyReplace_cons_neg new (by simp [h.1]), ih h.2]

theorem length_le_of_isPrefixOf {pat s : List Char} (h : pat.isPrefixOf s = true) :
    pat.length ≤ s.length := by
  rcases isPrefixOf_iff_exists.1 h with ⟨t, rfl⟩
  simp

theorem length_le_of_hasSub {pat s : List Char} (h : hasSub pat s = true) :
    pat.length ≤ s.length := by
  induction s with
  | nil =>
    cases pat with
    | nil => simp
    | cons _ _ => simp [hasSub, List.isEmpty] at h
  | cons c rest ih =>
    simp only [hasSub, Bool.or_eq_true] at h
    rcases h with h | h
    · exact length_le_of_isPrefixOf h
    · exact Nat.le_trans (ih h) (by simp)

theorem mem_of_hasSub {pat s : List Char} (h : hasSub pat s = true) {c : Char}
    (hc : c ∈ pat) : c ∈ s := by
  induction s with
  | nil =>
    cases pat with
    | nil => simp at hc
    | cons _ _ => simp [hasSub, List.isEmpty] at h
  | cons d rest ih =>
    simp only [hasSub, Bool.or_eq_true] at h
    rcases h with h | h
    · rcases isPrefixOf_iff_exists.1 h with ⟨t, ht⟩
      rw [ht]
      exact List.mem_append_left _ hc
    · exact List.mem_cons_of_mem _ (ih h)

theorem not_hasSub_of_longer {pat s : List Char} (h : s.length < pat.length) :
    hasSub pat s = false := by
  cases hs : hasSub pat s with
  | false => rfl
  | true => exact absurd (length_le_of_hasSub hs) (by omega)

/-- Sanity evaluation: `'ababx'.replace('ab', '') == 'x'` (left-to-right,
non-overlapping). -/
theorem pyReplace_eval_nonoverlap : pyReplace "ab".data "".data "ababx".data = "x".data := by
  decide

/-- Sanity evaluation: `'b/' in 'a/b/c'`. -/
theorem hasSub_eval_mid : hasSub "b/".data "a/b/c".data = true := by
  decide

/-! takeWhile / dropWhile -/

theorem takeWhile_append_pass {α : Type} (p : α → Bool) {l₁ : List α}
    (h : ∀ x ∈ l₁, p x = true) (l₂ : List α) :
    (l₁ ++ l₂).takeWhile p = l₁ ++ l₂.takeWhile p := by
  induction l₁ with
  | nil => simp
  | cons c l ih =>
    have hc : p c = true := h c (by simp)
    simp only [List.cons_append, List.takeWhile_cons, hc, if_true]
    rw [ih (fun x hx => h x (by simp [hx]))]

theorem takeWhile_append_stop {α : Type} (p : α → Bool) {x : α}
    (hx : p x = false) (l₁ l₂ : List α) :
    (l₁ ++ x :: l₂).takeWhile p = l₁.takeWhile p := by
  induction l₁ with
  | nil => simp [List.takeWhile_cons, hx]
  | cons c l ih =>
    simp only [List.cons_append, List.takeWhile_cons]
    cases hpc : p c with
    | true => simp [ih]
    | false => simp

theorem dropWhile_append_pass {α : Type} (p : α → Bool) {l₁ : List α}
    (h : ∀ x ∈ l₁, p x = true) (l₂ : List α) :
    (l₁ ++ l₂).dropWhile p = l₂.dropWhile p := by
  induction l₁ with
  | nil => simp
  | cons c l ih =>
    have hc : p c = true := h c (by simp)
    simp only [List.cons_append, List.dropWhile_cons, hc, if_true]
    exact ih (fun x hx => h x (by simp [hx]))

theorem dropWhile_cons_stop {α : Type} (p : α → Bool) {x : α}
    (hx : p x = false) (l : List α) : (x :: l).dropWhile p = x :: l := by
  simp [List.dropWhile_cons, hx]

/-! pySplit and segments -/

theorem pySplit_ne_nil (sep : Char) (s : List Char) : pySplit sep s ≠ [] := by
  cases s with
  | nil => simp [pySplit]
  | cons c rest =>
    rw [pySplit]
    by_cases hc : c = sep
    · simp [hc]
    · rw [if_neg hc]
      cases pySplit sep rest <;> simp

theorem pySplit_cons_self (sep : Char) (rest : List Char) :
    pySplit sep (sep :: rest) = [] :: pySplit sep rest := by
  rw [pySplit, if_pos rfl]

theorem pySplit_cons_of_ne {sep c : Char} {rest g : List Char} {gs : List (List Char)}
    (hc : ¬ c = sep) (hsp : pySplit sep rest = g :: gs) :
    pySplit sep (c :: rest) = (c :: g) :: gs := by
  rw [pySplit, if_neg hc, hsp]

theorem headD_pySplit (sep : Char) (s : List Char) :
    (pySplit sep s).headD [] = s.takeWhile (fun c => c != sep) := by
  induction s with
  | nil => simp [pySplit]
  | cons c rest ih =>
    by_cases hc : c = sep
    · subst hc
      rw [pySplit_cons_self]
      simp [List.takeWhile_cons]
    · rcases hsp : pySplit sep rest with _ | ⟨g, gs⟩
      · exact absurd hsp (pySplit_ne_nil sep rest)
      · rw [pySplit_cons_of_ne hc hsp]
        rw [hsp] at ih
        simp only [List.headD_cons] at ih
        have hb : (c != sep) = true := by simp [hc]
        simp only [List.headD_cons, List.takeWhile_cons, hb, if_true]
        rw [ih]

theorem firstSeg_eq_takeWhile (sep : Char) (s : List Char) :
    firstSeg sep s = s.takeWhile (fun c => c != sep) :=
  headD_pySplit sep s

theorem lastD_cons_cons (d : List Char) (x y : List Char) (xs : List (List Char)) :
    lastD d (x :: y :: xs) = lastD d (y :: xs) := rfl

theorem lastD_ne_nil_irrel (d d' : List Char) :
    ∀ (l : List (List Char)), l ≠ [] → lastD d l = lastD d' l
  | [], h => absurd rfl h
  | [x], _ => rfl
  | x :: y :: xs, _ => by
    rw [lastD_cons_cons, lastD_cons_cons]
    exact lastD_ne_nil_irrel d d' (y :: xs) (by simp)

theorem takeWhile_append_of_mem_stop {α : Type} (p : α → Bool) {x : α} {l₁ : List α}
    (hmem : x ∈ l₁) (hx : p x = false) (l₂ : List α) :
    (l₁ ++ l₂).takeWhile p = l₁.takeWhile p := by
  obtain ⟨s, t, rfl⟩ := List.append_of_mem hmem
  rw [List.append_assoc, List.cons_append, takeWhile_append_stop p hx,
    takeWhile_append_stop p hx]

theorem pySplit_no_sep {sep : Char} {s : List Char} (h : sep ∉ s) :
    pySplit sep s = [s] := by
  induction s with
  | nil => rfl
  | cons c rest ih =>
    rw [pySplit, if_neg (by intro hc; exact h (hc ▸ List.mem_cons_self c rest)),
      ih (fun hm => h (List.mem_cons_of_mem c hm))]

theorem two_le_length_pySplit {sep : Char} {s : List Char} (h : sep ∈ s) :
    2 ≤ (pySplit sep s).length := by
  induction s with
  | nil => simp at h
  | cons c rest ih =>
    by_cases hc : c = sep
    · subst hc
      rw [pySplit_cons_self]
      rcases hsp : pySplit c rest with _ | ⟨g, gs⟩
      · exact absurd hsp (pySplit_ne_nil c rest)
      · simp
    · have hmem : sep ∈ rest := by
        rcases List.mem_cons.1 h with h' | h'
        · exact absurd h'.symm hc
        · exact h'
      rcases hsp : pySplit sep rest with _ | ⟨g, gs⟩
      · exact absurd hsp (pySplit_ne_nil sep rest)
      · rw [pySplit_cons_of_ne hc hsp]
        have h2 := ih hmem
        rw [hsp] at h2
        simpa using h2

theorem lastSeg_eq_takeWhile_reverse (sep : Char) (s : List Char) :
    lastSeg sep s = (s.reverse.takeWhile (fun c => c != sep)).reverse := by
  unfold lastSeg
  induction s with
  | nil => simp [pySplit, lastD]
  | cons c rest ih =>
    by_cases hc : c = sep
    · subst hc
      rw [pySplit_cons_self]
      rcases hsp : pySplit c rest with _ | ⟨g, gs⟩
      · exact absurd hsp (pySplit_ne_nil c rest)
      · rw [hsp] at ih
        rw [lastD_cons_cons, ih, List.reverse_cons,
          takeWhile_append_stop (fun x => x != c) (by simp) rest.reverse []]
    · rcases hsp : pySplit sep rest with _ | ⟨g, gs⟩
      · exact absurd hsp (pySplit_ne_nil sep rest)
      · rw [pySplit_cons_of_ne hc hsp]
        rw [hsp] at ih
        rcases gs with _ | ⟨g2, gs2⟩
        · -- pySplit rest = [g]: rest is separator-free, g = rest
          have hnosep : sep ∉ rest := by
            intro hmem
            have h2 := two_le_length_pySplit hmem
            rw [hsp] at h2
            simp at h2
          have hg : g = rest := by
            have h2 := pySplit_no_sep hnosep
            rw [hsp] at h2
            simpa using h2
          show c :: g = _
          rw [hg, List.reverse_cons,
            takeWhile_append_pass (fun x => x != sep) (fun x hx => by
              have hxs : x ≠ sep := fun hxe => hnosep (hxe ▸ List.mem_reverse.1 hx)
              simpa using hxs) [c]]
          have hb : (c != sep) = true := by simp [hc]
          simp [List.takeWhile_cons, hb]
        · -- pySplit rest has at least two chunks: sep occurs in rest
          have hmem : sep ∈ rest := by
            by_contra hnm
            have h2 := pySplit_no_sep hnm
            rw [hsp] at h2
            simp at h2
          rw [lastD_cons_cons, ← lastD_cons_cons [] g g2 gs2, ih, List.reverse_cons,
            takeWhile_append_of_mem_stop (fun x => x != sep) (List.mem_reverse.2 hmem)
              (by simp) [c]]

/-! reverse / head / getLast helpers -/

theorem dropWhile_head_not {α : Type} (p : α → Bool) :
    ∀ {l : List α} {y : α} {ys : List α}, l.dropWhile p = y :: ys → p y = false := by
  intro l
  induction l with
  | nil => intro y ys h; simp at h
  | cons c rest ih =>
    intro y ys h
    cases hpc : p c with
    | true =>
      rw [List.dropWhile_cons, if_pos (by simp [hpc])] at h
      exact ih h
    | false =>
      rw [List.dropWhile_cons, if_neg (by simp [hpc])] at h
      cases h
      exact hpc

theorem getLast?_of_reverse {α : Type} (l : List α) : l.reverse.getLast? = l.head? := by
  cases l with
  | nil => rfl
  | cons c rest =>
    rw [List.reverse_cons, List.getLast?_append_cons]
    rfl

theorem head?_of_reverse {α : Type} (l : List α) : l.reverse.head? = l.getLast? := by
  have h := getLast?_of_reverse l.reverse
  rw [List.reverse_reverse] at h
  exact h.symm

theorem headD_append_of_ne_nil {α : Type} {l : List α} (h : l ≠ []) (t : List α) (d : α) :
    (l ++ t).headD d = l.headD d := by
  cases l with
  | nil => exact absurd rfl h
  | cons c rest => rfl

theorem getLast?_cons_of_ne_nil {α : Type} {l : List α} (h : l ≠ []) (c : α) :
    (c :: l).getLast? = l.getLast? := by
  cases l with
  | nil => exact absurd rfl h
  | cons d rest => exact List.getLast?_cons_cons

theorem all_eq_false_of_mem {α : Type} {p : α → Bool} {x : α} {l : List α}
    (hx : x ∈ l) (hp : p x = false) : l.all p = false := by
  cases hall : l.all p with
  | false => rfl
  | true =>
    have hpx := List.all_eq_true.1 hall x hx
    rw [hp] at hpx
    exact absurd hpx (by simp)

/-! lastSeg facts -/

theorem not_sep_mem_lastSeg (sep : Char) (s : List Char) : sep ∉ lastSeg sep s := by
  rw [lastSeg_eq_takeWhile_reverse]
  intro hmem
  have hp := List.mem_takeWhile_imp (List.mem_reverse.1 hmem)
  simp at hp

theorem lastSeg_append_of_mem {b : List Char} (a : List Char)
    (hmem : ('/' : Char) ∈ b) : lastSeg '/' (a ++ b) = lastSeg '/' b := by
  rw [lastSeg_eq_takeWhile_reverse, lastSeg_eq_takeWhile_reverse, List.reverse_append,
    takeWhile_append_of_mem_stop (fun c => c != '/') (List.mem_reverse.2 hmem)
      (by simp) a.reverse]

theorem lastSeg_append_sep {u : List Char} (a : List Char)
    (hno : ('/' : Char) ∉ u) : lastSeg '/' (a ++ '/' :: u) = u := by
  rw [lastSeg_eq_takeWhile_reverse]
  have h1 : (a ++ '/' :: u).reverse = u.reverse ++ '/' :: a.reverse := by
    simp
  rw [h1, takeWhile_append_stop (fun c => c != '/') (by simp) u.reverse a.reverse,
    List.takeWhile_eq_self_iff.2 (fun x hx => by
      have hxs : x ≠ '/' := fun hxe => hno (hxe ▸ List.mem_reverse.1 hx)
      simpa using hxs),
    List.reverse_reverse]

theorem lastSeg_append_no_sep {b : List Char} (a : List Char)
    (hno : ('/' : Char) ∉ b) : b.isSuffixOf (lastSeg '/' (a ++ b)) = true := by
  rw [lastSeg_eq_takeWhile_reverse, List.reverse_append,
    takeWhile_append_pass (fun c => c != '/') (fun x hx => by
      have hxs : x ≠ '/' := fun hxe => hno (hxe ▸ List.mem_reverse.1 hx)
      simpa using hxs) a.reverse,
    List.reverse_append, List.reverse_reverse]
  exact isSuffixOf_append_self _ _

/-! dirname decomposition -/

theorem dirname_of_no_sep {tail : List Char} (hno : ('/' : Char) ∉ tail) :
    dirname tail = [] := by
  have hw : tail.reverse.dropWhile (fun c => c != '/') = [] :=
    List.dropWhile_eq_nil_iff.2 (fun x hx => by
      have hxs : x ≠ '/' := fun hxe => hno (hxe ▸ List.mem_reverse.1 hx)
      simpa using hxs)
  rw [dirname]
  simp [hw]

theorem hasSub_dbl_sep (a b : List Char) :
    hasSub ['/', '/'] (a ++ '/' :: '/' :: b) = true :=
  hasSub_append_left a (hasSub_of_isPrefixOf (by simp [List.isPrefixOf]))

theorem dirname_decomp {tail : List Char}
    (hmem : ('/' : Char) ∈ tail)
    (hhead : tail.headD ' ' ≠ '/')
    (hdbl : hasSub ['/', '/'] tail = false) :
    dirname tail ≠ [] ∧
    (dirname tail).headD ' ' ≠ '/' ∧
    (dirname tail).getLast? ≠ some '/' ∧
    tail = dirname tail ++ '/' :: lastSeg '/' tail := by
  -- tail.reverse splits at the first separator from the right
  have hw : tail.reverse.dropWhile (fun c => c != '/') ≠ [] := by
    intro h0
    have hall := List.dropWhile_eq_nil_iff.1 h0 '/' (List.mem_reverse.2 hmem)
    simp at hall
  rcases hwcons : tail.reverse.dropWhile (fun c => c != '/') with _ | ⟨y, v⟩
  · exact absurd hwcons hw
  have hy : y = '/' := by
    have hnot := dropWhile_head_not (fun c => c != '/') hwcons
    simpa using hnot
  subst hy
  have hsplit : tail.reverse.takeWhile (fun c => c != '/') ++ '/' :: v = tail.reverse := by
    rw [← hwcons]
    exact List.takeWhile_append_dropWhile (fun c => c != '/') tail.reverse
  have hdecomp : tail = v.reverse ++ '/' :: (tail.reverse.takeWhile (fun c => c != '/')).reverse := by
    have h2 : tail = (tail.reverse.takeWhile (fun c => c != '/') ++ '/' :: v).reverse := by
      rw [hsplit, List.reverse_reverse]
    conv_lhs => rw [h2]
    simp
  have hlast : lastSeg '/' tail = (tail.reverse.takeWhile (fun c => c != '/')).reverse :=
    lastSeg_eq_takeWhile_reverse '/' tail
  -- v is non-empty and does not start with a separator
  have hvne : v ≠ [] := by
    intro h0
    subst h0
    rw [hdecomp] at hhead
    simp at hhead
  rcases hv : v with _ | ⟨z, v2⟩
  · exact absurd hv hvne
  subst hv
  have hz : z ≠ '/' := by
    intro h0
    have hsub : hasSub ['/', '/'] tail = true := by
      rw [hdecomp, h0]
      have hshape : ∀ w : List Char,
          (('/' : Char) :: v2).reverse ++ '/' :: w = v2.reverse ++ '/' :: '/' :: w := by
        intro w
        simp
      rw [hshape]
      exact hasSub_dbl_sep _ _
    rw [hsub] at hdbl
    simp at hdbl
  -- compute dirname tail
  have hd : dirname tail = (z :: v2).reverse := by
    rw [dirname, hwcons]
    have hrev : (('/' :: z :: v2).reverse) = (z :: v2).reverse ++ ['/'] := by simp
    rw [hrev]
    have hne : (z :: v2).reverse ++ ['/'] ≠ [] := by simp
    have hallf : ((z :: v2).reverse ++ ['/']).all (fun c => c == '/') = false :=
      all_eq_false_of_mem (by simp : z ∈ (z :: v2).reverse ++ ['/']) (by simp [hz])
    rw [if_pos ⟨hne, hallf⟩]
    have hrev2 : ((z :: v2).reverse ++ ['/']).reverse = '/' :: (z :: v2).reverse.reverse := by
      simp
    rw [hrev2, List.reverse_reverse, List.dropWhile_cons, if_pos (by simp)]
    rw [List.dropWhile_cons, if_neg (by simp [hz])]
  refine ⟨?_, ?_, ?_, ?_⟩
  · rw [hd]
    simp
  · rw [hd]
    rw [hdecomp] at hhead
    rw [headD_append_of_ne_nil (by simp) _ ' '] at hhead
    exact hhead
  · rw [hd, getLast?_of_reverse]
    simp [hz]
  · rw [hd, hlast]
    exact hdecomp

/-- Core composition fact about `_make_local_path`'s final joins: joining
the normalized base `B`, the directory part of `tail` and the file name
`fn` yields a path that extends `B ++ "/"` and keeps `tail` as suffix. -/
theorem joinPath_build {B tail fn : List Char}
    (hB1 : B ≠ []) (hB2 : B.getLast? ≠ some '/')
    (ht1 : tail.headD ' ' ≠ '/')
    (ht2 : hasSub ['/', '/'] tail = false)
    (hfn : ('/' : Char) ∉ fn)
    (hrel : if ('/' : Char) ∈ tail then fn = lastSeg '/' tail else tail.isSuffixOf fn = true) :
    (B ++ ['/']).isPrefixOf (joinPath (joinPath B (dirname tail)) fn) = true ∧
    tail.isSuffixOf (joinPath (joinPath B (dirname tail)) fn) = true := by
  have hfnhead : ¬ fn.headD ' ' = '/' := by
    cases fn with
    | nil => simp
    | cons f fn' =>
      intro h0
      rw [List.headD_cons] at h0
      subst h0
      exact hfn (List.mem_cons_self _ _)
  by_cases hmem : ('/' : Char) ∈ tail
  · rw [if_pos hmem] at hrel
    obtain ⟨hd1, hd2, hd3, hd4⟩ := dirname_decomp hmem ht1 ht2
    have hj1 : joinPath B (dirname tail) = B ++ '/' :: dirname tail := by
      simp only [joinPath]
      rw [if_neg hd2, if_neg ?c2]
      case c2 =>
        intro h0
        rcases h0 with h0 | h0
        · exact hB1 h0
        · exact hB2 h0
    have hglast : (B ++ '/' :: dirname tail).getLast? = (dirname tail).getLast? := by
      rw [List.getLast?_append_cons, getLast?_cons_of_ne_nil hd1]
    have hj2 : joinPath (B ++ '/' :: dirname tail) fn
        = (B ++ '/' :: dirname tail) ++ '/' :: fn := by
      simp only [joinPath]
      rw [if_neg hfnhead, if_neg ?c3]
      case c3 =>
        intro h0
        rcases h0 with h0 | h0
        · simp at h0
        · rw [hglast] at h0
          exact hd3 h0
    have hX : (B ++ '/' :: dirname tail) ++ '/' :: fn = (B ++ ['/']) ++ tail := by
      conv_rhs => rw [hd4, ← hrel]
      simp
    rw [hj1, hj2, hX]
    exact ⟨isPrefixOf_self_append _ _, isSuffixOf_append_self _ _⟩
  · rw [if_neg hmem] at hrel
    have hd0 : dirname tail = [] := dirname_of_no_sep hmem
    have hj1 : joinPath B (dirname tail) = B ++ '/' :: [] := by
      rw [hd0]
      simp only [joinPath]
      rw [if_neg (by simp), if_neg ?c4]
      case c4 =>
        intro h0
        rcases h0 with h0 | h0
        · exact hB1 h0
        · exact hB2 h0
    have hglast2 : (B ++ '/' :: ([] : List Char)).getLast? = some '/' := by
      rw [List.getLast?_append_cons]
      rfl
    have hj2 : joinPath (B ++ '/' :: []) fn = (B ++ '/' :: []) ++ fn := by
      simp only [joinPath]
      rw [if_neg hfnhead, if_pos (Or.inr hglast2)]
    rw [hj1, hj2]
    have hsh : (B ++ '/' :: ([] : List Char)) ++ fn = (B ++ ['/']) ++ fn := by simp
    rw [hsh]
    exact ⟨isPrefixOf_self_append _ _, isSuffixOf_append_left _ hrel⟩

/-- `_make_local_path` on an object name `prefToRep ++ rem` whose
prefix-to-replace occurs only at the head: the result extends the
normalized base directory and ends in `rem` with one leading separator
stripped. -/
theorem makeLocalPath_head_strip (env : List Char → List Char)
    (prefToRep rem base_dst_dir : List Char)
    (hp : prefToRep ≠ [])
    (hocc : hasSub prefToRep rem = false)
    (hdbl : hasSub ['/', '/'] (prefToRep ++ rem) = false)
    (hB1 : expanduser env (normpath (standardizeDirPath base_dst_dir)) ≠ [])
    (hB2 : (expanduser env (normpath (standardizeDirPath base_dst_dir))).getLast? ≠ some '/') :
    ((expanduser env (normpath (standardizeDirPath base_dst_dir)) ++ ['/']).isPrefixOf
        (makeLocalPath env (prefToRep ++ rem) prefToRep base_dst_dir) = true) ∧
    ((if rem.headD ' ' = '/' then rem.tail else rem).isSuffixOf
        (makeLocalPath env (prefToRep ++ rem) prefToRep base_dst_dir) = true) := by
  have htail0 : pyReplace prefToRep [] (prefToRep ++ rem) = rem := by
    rw [pyReplace_head [] hp rem, pyReplace_of_not_hasSub [] hocc, List.nil_append]
  have hmk : makeLocalPath env (prefToRep ++ rem) prefToRep base_dst_dir
      = joinPath (joinPath (expanduser env (normpath (standardizeDirPath base_dst_dir)))
          (dirname (if rem.headD ' ' = '/' then rem.tail else rem)))
          (lastSeg '/' (prefToRep ++ rem)) := by
    simp only [makeLocalPath, htail0]
  have hfn := not_sep_mem_lastSeg '/' (prefToRep ++ rem)
  have hno2 : hasSub ['/', '/'] rem = false := by
    cases h0 : hasSub ['/', '/'] rem with
    | false => rfl
    | true =>
      rw [hasSub_append_left prefToRep h0] at hdbl
      simp at hdbl
  rw [hmk]
  rcases rem with _ | ⟨c, r'⟩
  · have htlr : (if ([] : List Char).headD ' ' = '/' then ([] : List Char).tail
        else ([] : List Char)) = [] := by
      rw [if_neg (by simp)]
    rw [htlr]
    refine joinPath_build hB1 hB2 (by simp) (by decide) hfn ?_
    rw [if_neg (by simp)]
    exact isSuffixOf_iff_exists.2 ⟨_, (List.append_nil _).symm⟩
  · by_cases hc : c = '/'
    · subst hc
      have htlr : (if (('/' : Char) :: r').headD ' ' = '/' then (('/' : Char) :: r').tail
          else ('/' : Char) :: r') = r' := by
        rw [if_pos (by simp)]
        rfl
      rw [htlr]
      have hr1 : r'.headD ' ' ≠ '/' := by
        rcases r' with _ | ⟨d, r''⟩
        · simp
        · simp only [List.headD_cons]
          intro h0
          subst h0
          have h2 := hasSub_dbl_sep prefToRep r''
          rw [h2] at hdbl
          simp at hdbl
      have hr2 : hasSub ['/', '/'] r' = false := by
        cases h0 : hasSub ['/', '/'] r' with
        | false => rfl
        | true =>
          have h2 := hasSub_cons_of '/' h0
          rw [h2] at hno2
          simp at hno2
      refine joinPath_build hB1 hB2 hr1 hr2 hfn ?_
      by_cases hmem : ('/' : Char) ∈ r'
      · rw [if_pos hmem]
        have hsh : prefToRep ++ '/' :: r' = (prefToRep ++ ['/']) ++ r' := by simp
        rw [hsh]
        exact lastSeg_append_of_mem (prefToRep ++ ['/']) hmem
      · rw [if_neg hmem]
        rw [lastSeg_append_sep prefToRep hmem]
        exact isSuffixOf_iff_exists.2 ⟨[], by simp⟩
    · have htlr : (if (c :: r').headD ' ' = '/' then (c :: r').tail else c :: r')
          = c :: r' := by
        rw [if_neg (by simp [hc])]
      rw [htlr]
      refine joinPath_build hB1 hB2 (by simp [hc]) hno2 hfn ?_
      by_cases hmem : ('/' : Char) ∈ (c :: r')
      · rw [if_pos hmem]
        exact lastSeg_append_of_mem prefToRep hmem
      · rw [if_neg hmem]
        exact lastSeg_append_no_sep prefToRep hmem

/-! Parser facts shared by both backends -/

theorem parse_core (sch c rest : List Char)
    (hsne : sch ≠ [])
    (hs : hasSub sch (c ++ '/' :: rest) = false)
    (hslash : ('/' : Char) ∉ c)
    (hocc : hasSub (c ++ ['/']) rest = false) :
    pyReplace sch [] (sch ++ (c ++ '/' :: rest)) = c ++ '/' :: rest ∧
    firstSeg '/' (c ++ '/' :: rest) = c ∧
    pyReplace (c ++ ['/']) [] (c ++ '/' :: rest) = rest := by
  refine ⟨?_, ?_, ?_⟩
  · rw [pyReplace_head [] hsne, pyReplace_of_not_hasSub [] hs, List.nil_append]
  · rw [firstSeg_eq_takeWhile, takeWhile_append_stop (fun x => x != '/') (by simp) c rest]
    exact List.takeWhile_eq_self_iff.2 (fun x hx => by
      have hxs : x ≠ '/' := fun he => hslash (he ▸ hx)
      simpa using hxs)
  · have hsh : c ++ '/' :: rest = (c ++ ['/']) ++ rest := by simp
    rw [hsh, pyReplace_head [] (by simp) rest, pyReplace_of_not_hasSub [] hocc,
      List.nil_append]

theorem parse_core_no_sep (sch name : List Char) (hsne : sch ≠ [])
    (hsep : ('/' : Char) ∈ sch) (hslash : ('/' : Char) ∉ name) :
    pyReplace sch [] (sch ++ name) = name ∧
    firstSeg '/' name = name ∧
    pyReplace (name ++ ['/']) [] name = name := by
  refine ⟨?_, ?_, ?_⟩
  · rw [pyReplace_head [] hsne]
    have hnos : hasSub sch name = false := by
      cases h0 : hasSub sch name with
      | false => rfl
      | true => exact absurd (mem_of_hasSub h0 hsep) hslash
    rw [pyReplace_of_not_hasSub [] hnos, List.nil_append]
  · rw [firstSeg_eq_takeWhile]
    exact List.takeWhile_eq_self_iff.2 (fun x hx => by
      have hxs : x ≠ '/' := fun he => hslash (he ▸ hx)
      simpa using hxs)
  · exact pyReplace_of_not_hasSub [] (not_hasSub_of_longer (by simp))

/-! ## Claim theorems -/

/-- C1, counterexample: for the locator `s3://b/a/b/c` (respectively
`gs://b/a/b/c`), whose object prefix contains a path segment equal to the
container name `b`, both parsers return the prefix `a/c` — the
`str.replace` call removes the second occurrence of `b/` as well — and
not the remainder `a/b/c` after the first separator, refuting the claim
as stated. -/
theorem claim_C1_cex :
    s3ParsePath "s3://b/a/b/c".data = ("b".data, "a/c".data) ∧
    (s3ParsePath "s3://b/a/b/c".data).2 ≠ "a/b/c".data ∧
    parseGsPath "gs://b/a/b/c".data = some ("b".data, "a/c".data) ∧
    (parseGsPath "gs://b/a/b/c".data).map Prod.snd ≠ some "a/b/c".data := by
  decide

/-- C1 (amended): for every valid locator `scheme://container/a/b/c` in
which the substring `container/` does not occur inside the object prefix
(and the scheme marker does not re-occur in the locator body), both
backend parsers strip the scheme marker and split at the first separator:
the container is `container` and the object prefix is exactly the
remainder `a/b/c`.  When the prefix does contain a segment equal to the
container name, every occurrence of `container/` is removed instead
(see the counterexample). -/
theorem claim_C1 (c rest : List Char)
    (hc : c ≠ []) (hslash : ('/' : Char) ∉ c)
    (hs3 : hasSub "s3://".data (c ++ '/' :: rest) = false)
    (hgs : hasSub "gs://".data (c ++ '/' :: rest) = false)
    (hocc : hasSub (c ++ ['/']) rest = false) :
    s3ParsePath ("s3://".data ++ (c ++ '/' :: rest)) = (c, rest) ∧
    parseGsPath ("gs://".data ++ (c ++ '/' :: rest)) = some (c, rest) := by
  obtain ⟨h1, h2, h3⟩ := parse_core "s3://".data c rest (by decide) hs3 hslash hocc
  obtain ⟨g1, g2, g3⟩ := parse_core "gs://".data c rest (by decide) hgs hslash hocc
  constructor
  · simp only [s3ParsePath]
    rw [if_pos (isPrefixOf_self_append _ _), h1, h2, h3]
  · simp only [parseGsPath]
    rw [if_pos (isPrefixOf_self_append _ _), g1, g2, g3]

theorem claim_C1_witness :
    s3ParsePath ("s3://".data ++ ("bucket".data ++ '/' :: "a/b/c".data))
      = ("bucket".data, "a/b/c".data) ∧
    parseGsPath ("gs://".data ++ ("bucket".data ++ '/' :: "a/b/c".data))
      = some ("bucket".data, "a/b/c".data) :=
  claim_C1 "bucket".data "a/b/c".data (by decide) (by decide) (by decide) (by decide)
    (by decide)

/-- C10: a locator that carries the scheme marker but no separator after
it (e.g. `s3://bucket`, `gs://bucket`) parses to an object prefix equal
to the container name itself — `'{}/'.format(bucket_name)` does not occur
in `bucket`, so the `replace` removes nothing — and in particular the
prefix is not the empty string. -/
theorem claim_C10 (name : List Char) (hne : name ≠ [])
    (hslash : ('/' : Char) ∉ name) :
    s3ParsePath ("s3://".data ++ name) = (name, name) ∧
    parseGsPath ("gs://".data ++ name) = some (name, name) ∧
    (s3ParsePath ("s3://".data ++ name)).2 ≠ [] := by
  obtain ⟨h1, h2, h3⟩ := parse_core_no_sep "s3://".data name (by decide) (by decide) hslash
  obtain ⟨g1, g2, g3⟩ := parse_core_no_sep "gs://".data name (by decide) (by decide) hslash
  have hs : s3ParsePath ("s3://".data ++ name) = (name, name) := by
    simp only [s3ParsePath]
    rw [if_pos (isPrefixOf_self_append _ _), h1, h2, h3]
  refine ⟨hs, ?_, ?_⟩
  · simp only [parseGsPath]
    rw [if_pos (isPrefixOf_self_append _ _), g1, g2, g3]
  · rw [hs]
    exact hne

theorem claim_C10_witness :
    s3ParsePath ("s3://".data ++ "bucket".data) = ("bucket".data, "bucket".data) ∧
    parseGsPath ("gs://".data ++ "bucket".data) = some ("bucket".data, "bucket".data) ∧
    (s3ParsePath ("s3://".data ++ "bucket".data)).2 ≠ [] :=
  claim_C10 "bucket".data (by decide) (by decide)

/-- C2, counterexample: for object name `p/x/p/y/f.tif` and
prefix-to-replace `p/` (a literal prefix of the name that occurs again
later), `_make_local_path` removes **every** occurrence of `p/`, mapping
to `/out/x/y/f.tif`; the path whose suffix is the name with only the head
occurrence stripped would end in `x/p/y/f.tif`, which the result does
not. -/
theorem claim_C2_cex :
    makeLocalPath id "p/x/p/y/f.tif".data "p/".data "/out".data = "/out/x/y/f.tif".data ∧
    "x/p/y/f.tif".data.isSuffixOf
      (makeLocalPath id "p/x/p/y/f.tif".data "p/".data "/out".data) = false := by
  decide

/-- C2 (amended): for every object name `n = p ++ rem` whose
prefix-to-replace `p` is a non-empty literal head that does not occur
again in the remainder (and `n` is free of doubled separators, over a
well-formed base directory), `_make_local_path` with folder mapping
yields a path under the normalized base directory whose suffix is `n`
with `p` stripped from its head and one leading separator removed.  When
`p` occurs again later in `n`, every occurrence is removed, not only the
head (see the counterexample). -/
theorem claim_C2 (env : List Char → List Char)
    (prefToRep rem base_dst_dir : List Char)
    (hp : prefToRep ≠ [])
    (hocc : hasSub prefToRep rem = false)
    (hdbl : hasSub ['/', '/'] (prefToRep ++ rem) = false)
    (hB1 : expanduser env (normpath (standardizeDirPath base_dst_dir)) ≠ [])
    (hB2 : (expanduser env (normpath (standardizeDirPath base_dst_dir))).getLast? ≠ some '/') :
    ((expanduser env (normpath (standardizeDirPath base_dst_dir)) ++ ['/']).isPrefixOf
        (makeLocalPath env (prefToRep ++ rem) prefToRep base_dst_dir) = true) ∧
    ((if rem.headD ' ' = '/' then rem.tail else rem).isSuffixOf
        (makeLocalPath env (prefToRep ++ rem) prefToRep base_dst_dir) = true) :=
  makeLocalPath_head_strip env prefToRep rem base_dst_dir hp hocc hdbl hB1 hB2

theorem claim_C2_witness :
    ((expanduser id (normpath (standardizeDirPath "/out".data)) ++ ['/']).isPrefixOf
        (makeLocalPath id ("scenes/2020/".data ++ "001/img1.tif".data)
          "scenes/2020/".data "/out".data) = true) ∧
    ((if "001/img1.tif".data.headD ' ' = '/' then "001/img1.tif".data.tail
        else "001/img1.tif".data).isSuffixOf
        (makeLocalPath id ("scenes/2020/".data ++ "001/img1.tif".data)
          "scenes/2020/".data "/out".data) = true) :=
  claim_C2 id "scenes/2020/".data "001/img1.tif".data "/out".data (by decide) (by decide)
    (by decide) (by decide) (by decide)

/-! Filesystem lemmas -/

theorem fsGet_fsSet_self (p : List Char) (v : Nat) (fs : FS) :
    fsGet p (fsSet p v fs) = some v := by
  induction fs with
  | nil => simp [fsSet, fsGet]
  | cons e fs ih =>
    obtain ⟨q, w⟩ := e
    by_cases hpq : p = q
    · simp [fsSet, fsGet, hpq]
    · simp only [fsSet, if_neg hpq]
      simp [fsGet, hpq, ih]

theorem fsGet_fsSet_ne {p q : List Char} (hne : p ≠ q) (v : Nat) (fs : FS) :
    fsGet p (fsSet q v fs) = fsGet p fs := by
  induction fs with
  | nil => simp [fsSet, fsGet, hne]
  | cons e fs ih =>
    obtain ⟨r, w⟩ := e
    by_cases hqr : q = r
    · subst hqr
      simp [fsSet, fsGet, hne]
    · simp only [fsSet, if_neg hqr]
      by_cases hpr : p = r
      · simp [fsGet, hpr]
      · simp [fsGet, hpr, ih]

theorem fsGet_fsRemove_self (p : List Char) (fs : FS) :
    fsGet p (fsRemove p fs) = none := by
  induction fs with
  | nil => simp [fsRemove, fsGet]
  | cons e fs ih =>
    obtain ⟨q, w⟩ := e
    by_cases hpq : p = q
    · subst hpq
      simp [fsRemove, ih]
    · simp [fsRemove, hpq, fsGet, ih]

theorem fsGet_fsRemove_ne {p q : List Char} (hne : p ≠ q) (fs : FS) :
    fsGet p (fsRemove q fs) = fsGet p fs := by
  induction fs with
  | nil => simp [fsRemove]
  | cons e fs ih =>
    obtain ⟨r, w⟩ := e
    by_cases hqr : q = r
    · subst hqr
      simp [fsRemove, fsGet, hne, ih]
    · by_cases hpr : p = r
      · simp [fsRemove, hqr, fsGet, hpr]
      · simp [fsRemove, hqr, fsGet, hpr, ih]

theorem self_ne_append_cons (a : List Char) (c : Char) (l : List Char) :
    a ≠ a ++ c :: l := by
  intro h
  have hlen := congrArg List.length h
  simp at hlen

theorem dst_ne_gsTempPath (dst : List Char) : dst ≠ gsTempPath dst :=
  self_ne_append_cons dst _ _

/-- C3: in `GoogleStorageDownload._download` the object bytes land only in
the temporary sibling `<dest>.000`; the destination name is produced only
by the `os.rename` on full success; and on every failure path the
temporary file is removed before returning.  Hence if the fetch fails
(with or without partial bytes written) and the destination did not exist
beforehand, neither the destination nor the temporary path exists
afterwards — while a successful fetch leaves the destination and removes
the temporary path. -/
theorem claim_C3 (fs : FS) (blob_name dst : List Char) (overwrite : Bool)
    (tempBytes : Option Nat) (v : Nat)
    (hnd : fsEx dst fs = false) :
    fsEx dst (gsDownloadStep (.fail tempBytes) fs blob_name dst overwrite).1 = false ∧
    fsEx (gsTempPath dst) (gsDownloadStep (.fail tempBytes) fs blob_name dst overwrite).1
      = false ∧
    (gsDownloadStep (.fail tempBytes) fs blob_name dst overwrite).2.1 = .failed ∧
    fsEx dst (gsDownloadStep (.ok v) fs blob_name dst overwrite).1 = true ∧
    fsEx (gsTempPath dst) (gsDownloadStep (.ok v) fs blob_name dst overwrite).1 = false ∧
    (gsDownloadStep (.ok v) fs blob_name dst overwrite).2.1 = .completed := by
  have htd := dst_ne_gsTempPath dst
  have hnone : fsGet dst fs = none := by
    cases h0 : fsGet dst fs with
    | none => rfl
    | some w =>
      simp only [fsEx, h0] at hnd
      simp at hnd
  have hskip : ¬ (overwrite = false ∧ fsEx dst fs = true) := by
    intro h
    rw [hnd] at h
    exact absurd h.2 (by simp)
  constructor
  · -- failure: destination absent afterwards
    simp only [gsDownloadStep, if_neg hskip]
    cases tempBytes with
    | some w =>
      have hx : fsEx (gsTempPath dst) (fsSet (gsTempPath dst) w fs) = true := by
        simp [fsEx, fsGet_fsSet_self]
      simp only [hx, if_pos rfl]
      simp [fsEx, fsGet_fsRemove_ne htd, fsGet_fsSet_ne htd, hnone]
    | none =>
      by_cases hx : fsEx (gsTempPath dst) fs = true
      · simp only [hx, if_pos rfl]
        simp [fsEx, fsGet_fsRemove_ne htd, hnone]
      · simp only [if_neg hx]
        simp [fsEx, hnone]
  constructor
  · -- failure: temporary absent afterwards
    simp only [gsDownloadStep, if_neg hskip]
    cases tempBytes with
    | some w =>
      have hx : fsEx (gsTempPath dst) (fsSet (gsTempPath dst) w fs) = true := by
        simp [fsEx, fsGet_fsSet_self]
      simp only [hx, if_pos rfl]
      simp [fsEx, fsGet_fsRemove_self]
    | none =>
      by_cases hx : fsEx (gsTempPath dst) fs = true
      · simp only [hx, if_pos rfl]
        simp [fsEx, fsGet_fsRemove_self]
      · simp only [if_neg hx]
        simpa using hx
  refine ⟨by simp [gsDownloadStep, if_neg hskip], ?_, ?_,
    by simp [gsDownloadStep, if_neg hskip]⟩
  · -- success: destination present
    simp only [gsDownloadStep, if_neg hskip]
    have hren : fsRename (gsTempPath dst) dst (fsSet (gsTempPath dst) v fs)
        = fsSet dst v (fsRemove (gsTempPath dst) (fsSet (gsTempPath dst) v fs)) := by
      simp [fsRename, fsGet_fsSet_self]
    rw [hren]
    have hx : fsEx (gsTempPath dst)
        (fsSet dst v (fsRemove (gsTempPath dst) (fsSet (gsTempPath dst) v fs))) = false := by
      simp [fsEx, fsGet_fsSet_ne (Ne.symm htd), fsGet_fsRemove_self]
    simp only [hx]
    simp [fsEx, fsGet_fsSet_self]
  · -- success: temporary absent
    simp only [gsDownloadStep, if_neg hskip]
    have hren : fsRename (gsTempPath dst) dst (fsSet (gsTempPath dst) v fs)
        = fsSet dst v (fsRemove (gsTempPath dst) (fsSet (gsTempPath dst) v fs)) := by
      simp [fsRename, fsGet_fsSet_self]
    rw [hren]
    have hx : fsEx (gsTempPath dst)
        (fsSet dst v (fsRemove (gsTempPath dst) (fsSet (gsTempPath dst) v fs))) = false := by
      simp [fsEx, fsGet_fsSet_ne (Ne.symm htd), fsGet_fsRemove_self]
    simp only [hx]
    simpa using hx

theorem claim_C3_witness :
    fsEx "/out/f.tif".data
      (gsDownloadStep (.fail (some 5)) [] "b/f.tif".data "/out/f.tif".data false).1 = false ∧
    fsEx (gsTempPath "/out/f.tif".data)
      (gsDownloadStep (.fail (some 5)) [] "b/f.tif".data "/out/f.tif".data false).1 = false ∧
    (gsDownloadStep (.fail (some 5)) [] "b/f.tif".data "/out/f.tif".data false).2.1
      = .failed ∧
    fsEx "/out/f.tif".data
      (gsDownloadStep (.ok 7) [] "b/f.tif".data "/out/f.tif".data false).1 = true ∧
    fsEx (gsTempPath "/out/f.tif".data)
      (gsDownloadStep (.ok 7) [] "b/f.tif".data "/out/f.tif".data false).1 = false ∧
    (gsDownloadStep (.ok 7) [] "b/f.tif".data "/out/f.tif".data false).2.1 = .completed :=
  claim_C3 [] "b/f.tif".data "/out/f.tif".data false (some 5) 7 (by decide)

/-! Scheduler lemmas -/

theorem runPool_cons (fetch : List Char → List Char → S3Fetch) (fs : FS)
    (t : DlTask) (ts : List DlTask) :
    runPool fetch fs (t :: ts)
      = ((runPool fetch (s3DownloadStep (fetch t.src t.dst) fs t.src t.dst t.overwrite).1 ts).1,
         (s3DownloadStep (fetch t.src t.dst) fs t.src t.dst t.overwrite).2.1
           :: (runPool fetch (s3DownloadStep (fetch t.src t.dst) fs t.src t.dst t.overwrite).1 ts).2) :=
  rfl

theorem runPool_append (fetch : List Char → List Char → S3Fetch) (fs : FS)
    (ts1 ts2 : List DlTask) :
    runPool fetch fs (ts1 ++ ts2)
      = ((runPool fetch (runPool fetch fs ts1).1 ts2).1,
         (runPool fetch fs ts1).2 ++ (runPool fetch (runPool fetch fs ts1).1 ts2).2) := by
  induction ts1 generalizing fs with
  | nil => simp [runPool]
  | cons t ts ih =>
    rw [List.cons_append]
    rw [runPool_cons fetch fs t (ts ++ ts2), runPool_cons fetch fs t ts, ih]
    simp

theorem runPool_length (fetch : List Char → List Char → S3Fetch) (fs : FS)
    (ts : List DlTask) : (runPool fetch fs ts).2.length = ts.length := by
  induction ts generalizing fs with
  | nil => rfl
  | cons t ts ih => simp [runPool, ih]

/-- C5: with `overwrite=false` and an existing destination, the per-task
`_download` of both backends performs no backend fetch and returns the
filesystem unchanged with outcome SkippedExists; consequently a pool run
over tasks whose destinations all exist (the second run against an
unchanged remote prefix) writes nothing and resolves every task to
SkippedExists. -/
theorem claim_C5 :
    (∀ (fetch : S3Fetch) (fs : FS) (src dst : List Char),
      fsEx dst fs = true →
      s3DownloadStep fetch fs src dst false = (fs, .skippedExists, false)) ∧
    (∀ (fetch : GsFetch) (fs : FS) (blob dst : List Char),
      fsEx dst fs = true →
      gsDownloadStep fetch fs blob dst false = (fs, .skippedExists, false)) ∧
    (∀ (fetch : List Char → List Char → S3Fetch) (fs : FS) (tasks : List DlTask),
      (∀ t ∈ tasks, t.overwrite = false ∧ fsEx t.dst fs = true) →
      runPool fetch fs tasks = (fs, tasks.map (fun _ => TaskOutcome.skippedExists))) := by
  refine ⟨?_, ?_, ?_⟩
  · intro fetch fs src dst h
    simp [s3DownloadStep, h]
  · intro fetch fs blob dst h
    simp [gsDownloadStep, h]
  · intro fetch fs tasks h
    induction tasks with
    | nil => rfl
    | cons t ts ih =>
      obtain ⟨h1, h2⟩ := h t (by simp)
      have hstep : s3DownloadStep (fetch t.src t.dst) fs t.src t.dst t.overwrite
          = (fs, .skippedExists, false) := by
        rw [h1, s3DownloadStep.eq_def, if_pos ⟨rfl, h2⟩]
      rw [runPool_cons, hstep]
      rw [ih (fun u hu => h u (by simp [hu]))]
      simp

theorem claim_C5_witness :
    s3DownloadStep .otherExc [("/out/f.tif".data, 7)] "k".data "/out/f.tif".data false
      = ([("/out/f.tif".data, 7)], .skippedExists, false) ∧
    gsDownloadStep (.fail none) [("/out/f.tif".data, 7)] "b".data "/out/f.tif".data false
      = ([("/out/f.tif".data, 7)], .skippedExists, false) ∧
    runPool (fun _ _ => .ok 0) [("/out/f.tif".data, 7)]
        [⟨"k".data, "/out/f.tif".data, false⟩]
      = ([("/out/f.tif".data, 7)], [.skippedExists]) :=
  ⟨claim_C5.1 .otherExc [("/out/f.tif".data, 7)] "k".data "/out/f.tif".data (by decide),
   claim_C5.2.1 (.fail none) [("/out/f.tif".data, 7)] "b".data "/out/f.tif".data (by decide),
   claim_C5.2.2 (fun _ _ => .ok 0) [("/out/f.tif".data, 7)]
     [⟨"k".data, "/out/f.tif".data, false⟩] (by decide)⟩

/-- C6: the scheduler consumes the pre-built task list once — one
`_download` call and one terminal state per task (no retry) — and a task
whose fetch fails is caught inside its own call: it contributes `failed`,
leaves the filesystem unchanged, and the remaining tasks run exactly as
they would in its absence. -/
theorem claim_C6 (fetch : List Char → List Char → S3Fetch) (fs : FS)
    (ts1 ts2 : List DlTask) (t : DlTask)
    (hfail : ∀ v, fetch t.src t.dst ≠ S3Fetch.ok v)
    (how : t.overwrite = true) :
    runPool fetch fs (ts1 ++ t :: ts2)
      = ((runPool fetch (runPool fetch fs ts1).1 ts2).1,
         (runPool fetch fs ts1).2
           ++ .failed :: (runPool fetch (runPool fetch fs ts1).1 ts2).2) ∧
    (runPool fetch fs (ts1 ++ t :: ts2)).2.length = ts1.length + 1 + ts2.length := by
  have hstep : ∀ fs1 : FS,
      s3DownloadStep (fetch t.src t.dst) fs1 t.src t.dst t.overwrite
        = (fs1, .failed, true) := by
    intro fs1
    rw [s3DownloadStep.eq_def, if_neg (by simp [how])]
    cases hf : fetch t.src t.dst with
    | ok v => exact absurd hf (hfail v)
    | ioError => rfl
    | notFound404 => rfl
    | clientOther => rfl
    | otherExc => rfl
  constructor
  · rw [runPool_append]
    have hmid : runPool fetch (runPool fetch fs ts1).1 (t :: ts2)
        = ((runPool fetch (runPool fetch fs ts1).1 ts2).1,
           .failed :: (runPool fetch (runPool fetch fs ts1).1 ts2).2) := by
      rw [runPool_cons, hstep]
    rw [hmid]
  · rw [runPool_length]
    simp
    omega

theorem claim_C6_witness :
    runPool (fun s _ => if s = "k2".data then S3Fetch.notFound404 else S3Fetch.ok 1) []
        ([⟨"k1".data, "/o/1.tif".data, true⟩]
          ++ (⟨"k2".data, "/o/2.tif".data, true⟩ : DlTask)
          :: [⟨"k3".data, "/o/3.tif".data, true⟩])
      = ((runPool (fun s _ => if s = "k2".data then S3Fetch.notFound404 else S3Fetch.ok 1)
            (runPool (fun s _ => if s = "k2".data then S3Fetch.notFound404 else S3Fetch.ok 1)
              [] [⟨"k1".data, "/o/1.tif".data, true⟩]).1
            [⟨"k3".data, "/o/3.tif".data, true⟩]).1,
         (runPool (fun s _ => if s = "k2".data then S3Fetch.notFound404 else S3Fetch.ok 1)
            [] [⟨"k1".data, "/o/1.tif".data, true⟩]).2
           ++ .failed
           :: (runPool (fun s _ => if s = "k2".data then S3Fetch.notFound404 else S3Fetch.ok 1)
            (runPool (fun s _ => if s = "k2".data then S3Fetch.notFound404 else S3Fetch.ok 1)
              [] [⟨"k1".data, "/o/1.tif".data, true⟩]).1
            [⟨"k3".data, "/o/3.tif".data, true⟩]).2) ∧
    (runPool (fun s _ => if s = "k2".data then S3Fetch.notFound404 else S3Fetch.ok 1) []
        ([⟨"k1".data, "/o/1.tif".data, true⟩]
          ++ (⟨"k2".data, "/o/2.tif".data, true⟩ : DlTask)
          :: [⟨"k3".data, "/o/3.tif".data, true⟩])).2.length = 1 + 1 + 1 :=
  claim_C6 (fun s _ => if s = "k2".data then S3Fetch.notFound404 else S3Fetch.ok 1) []
    [⟨"k1".data, "/o/1.tif".data, true⟩] [⟨"k3".data, "/o/3.tif".data, true⟩]
    ⟨"k2".data, "/o/2.tif".data, true⟩
    (fun v h => by simp at h) rfl

/-- C7: when the backend listing call fails, `_list_objects` / `_list`
turn the exception into `None` — no partial list — `list` propagates it,
and `recursive_download` builds no task, attempts no fetch, leaves the
filesystem unchanged and ends with only a log record (no exception). -/
theorem claim_C7 :
    (∀ (includePat excludePat : Option Matcher),
      s3List (Except.error ()) includePat excludePat = none) ∧
    (∀ (gs_path : List Char) (includePat excludePat : Option Matcher),
      gsListRun (Except.error ()) gs_path includePat excludePat = none) ∧
    (∀ (env : List Char → List Char) (fetch : List Char → List Char → S3Fetch)
       (s3_path : List Char) (base : PyArg) (fm ow : Bool) (pref : Option PyArg)
       (includePat excludePat : Option Matcher) (fs : FS),
      (s3RecursiveDownload env (Except.error ()) fetch s3_path base fm ow pref
          includePat excludePat fs).tasks = [] ∧
      (s3RecursiveDownload env (Except.error ()) fetch s3_path base fm ow pref
          includePat excludePat fs).outcomes = [] ∧
      (s3RecursiveDownload env (Except.error ()) fetch s3_path base fm ow pref
          includePat excludePat fs).finalFs = fs ∧
      (s3RecursiveDownload env (Except.error ()) fetch s3_path base fm ow pref
          includePat excludePat fs).raised = false ∧
      (s3RecursiveDownload env (Except.error ()) fetch s3_path base fm ow pref
          includePat excludePat fs).listingAttempted = true) ∧
    (∀ (env : List Char → List Char) (gsFetch : List Char → List Char → GsFetch)
       (gs_path : List Char) (base : PyArg) (fm ow : Bool) (pref : Option PyArg)
       (includePat excludePat : Option Matcher) (fs : FS),
      (gsRecursiveDownload env (Except.error ()) gsFetch gs_path base fm ow pref
          includePat excludePat fs).tasks = [] ∧
      (gsRecursiveDownload env (Except.error ()) gsFetch gs_path base fm ow pref
          includePat excludePat fs).outcomes = [] ∧
      (gsRecursiveDownload env (Except.error ()) gsFetch gs_path base fm ow pref
          includePat excludePat fs).finalFs = fs ∧
      (gsRecursiveDownload env (Except.error ()) gsFetch gs_path base fm ow pref
          includePat excludePat fs).raised = false ∧
      (gsRecursiveDownload env (Except.error ()) gsFetch gs_path base fm ow pref
          includePat excludePat fs).listingAttempted = true) := by
  refine ⟨fun _ _ => rfl, ?_, ?_, ?_⟩
  · intro gs_path includePat excludePat
    rw [gsListRun]
    cases hp : parseGsPath gs_path with
    | none => rfl
    | some pr =>
      obtain ⟨bn, pre⟩ := pr
      by_cases hpre : pre = []
      · simp [hpre]
      · simp [hpre]
  · intro env fetch s3_path base fm ow pref includePat excludePat fs
    simp [s3RecursiveDownload, s3List]
  · intro env gsFetch gs_path base fm ow pref includePat excludePat fs
    have hnone : gsListRun (Except.error ()) gs_path includePat excludePat = none := by
      rw [gsListRun]
      cases hp : parseGsPath gs_path with
      | none => rfl
      | some pr =>
        obtain ⟨bn, pre⟩ := pr
        by_cases hpre : pre = []
        · simp [hpre]
        · simp [hpre]
    simp [gsRecursiveDownload, hnone]

/-- C8: the name filter of both backends keeps exactly the entries whose
name the include matcher accepts, then drops those the exclude matcher
accepts (include before exclude); with no pattern it is the identity.  On
names `{a.tif, a.ovr, b.tif}` the matcher of `re.search(r'\.tif$', ·)`
keeps `{a.tif, b.tif}` and additionally excluding `re.search(r'^a', ·)`
leaves `{b.tif}`. -/
theorem claim_C8 :
    (∀ (keys : List S3Key) (mi me : Matcher) (k : S3Key),
        k ∈ filterObjectNames keys (some mi) (some me)
          ↔ k ∈ keys ∧ mi k.objectName = true ∧ me k.objectName = false) ∧
    (∀ keys : List S3Key, filterObjectNames keys none none = keys) ∧
    (∀ (blobs : List Blob) (mi me : Matcher) (b : Blob),
        b ∈ filterBlobNames blobs (some mi) (some me)
          ↔ b ∈ blobs ∧ mi b.name = true ∧ me b.name = false) ∧
    (∀ blobs : List Blob, filterBlobNames blobs none none = blobs) ∧
    filterObjectNames [⟨"c".data, "a.tif".data, 1⟩, ⟨"c".data, "a.ovr".data, 2⟩,
        ⟨"c".data, "b.tif".data, 3⟩] (some matchDotTifEnd) none
      = [⟨"c".data, "a.tif".data, 1⟩, ⟨"c".data, "b.tif".data, 3⟩] ∧
    filterObjectNames [⟨"c".data, "a.tif".data, 1⟩, ⟨"c".data, "a.ovr".data, 2⟩,
        ⟨"c".data, "b.tif".data, 3⟩] (some matchDotTifEnd) (some matchCaretA)
      = [⟨"c".data, "b.tif".data, 3⟩] ∧
    filterBlobNames [⟨"a.tif".data, 1⟩, ⟨"a.ovr".data, 2⟩, ⟨"b.tif".data, 3⟩]
        (some matchDotTifEnd) (some matchCaretA)
      = [⟨"b.tif".data, 3⟩] := by
  refine ⟨?_, fun _ => rfl, ?_, fun _ => rfl, by decide, by decide, by decide⟩
  · intro keys mi me k
    simp only [filterObjectNames, List.mem_filter, Bool.not_eq_true']
    constructor
    · rintro ⟨⟨hk, hmi⟩, hme⟩
      exact ⟨hk, hmi, hme⟩
    · rintro ⟨hk, hmi, hme⟩
      exact ⟨⟨hk, hmi⟩, hme⟩
  · intro blobs mi me b
    simp only [filterBlobNames, List.mem_filter, Bool.not_eq_true']
    constructor
    · rintro ⟨⟨hb, hmi⟩, hme⟩
      exact ⟨hb, hmi, hme⟩
    · rintro ⟨hb, hmi, hme⟩
      exact ⟨⟨hb, hmi⟩, hme⟩

/-- C9: the cached container handle of both clients is untouched when the
requested name equals the cached one, replaced by a freshly constructed
handle when the name differs, and after any non-empty sequence of
`_get_bucket` calls its name is the most recently requested one. -/
theorem claim_C9 :
    (∀ (bn : List Char) (g c : Nat),
        s3GetBucket ⟨some ⟨bn, g⟩, c⟩ bn = ⟨some ⟨bn, g⟩, c⟩ ∧
        gsGetBucket ⟨some ⟨bn, g⟩, c⟩ bn = ⟨some ⟨bn, g⟩, c⟩) ∧
    (∀ (b : BucketHandle) (c : Nat) (bn : List Char), b.name ≠ bn →
        s3GetBucket ⟨some b, c⟩ bn = ⟨some ⟨bn, c⟩, c + 1⟩ ∧
        gsGetBucket ⟨some b, c⟩ bn = ⟨some ⟨bn, c⟩, c + 1⟩) ∧
    (∀ (st : CacheState) (names : List (List Char)), names ≠ [] →
        ((runGetBucket s3GetBucket st names).bucket.map BucketHandle.name
            = names.getLast?) ∧
        ((runGetBucket gsGetBucket st names).bucket.map BucketHandle.name
            = names.getLast?)) := by
  have hs3step : ∀ (st : CacheState) (bn : List Char),
      (s3GetBucket st bn).bucket.map BucketHandle.name = some bn := by
    intro st bn
    rw [s3GetBucket]
    by_cases hc : st.bucket.isNone = true ∨ st.bucket.map BucketHandle.name ≠ some bn
    · rw [if_pos hc]
      simp
    · rw [if_neg hc]
      push_neg at hc
      exact hc.2
  have hgsstep : ∀ (st : CacheState) (bn : List Char),
      (gsGetBucket st bn).bucket.map BucketHandle.name = some bn := by
    intro st bn
    cases hb : st.bucket with
    | none => simp [gsGetBucket, hb]
    | some b =>
      by_cases hname : b.name = bn
      · simp [gsGetBucket, hb, hname]
      · simp [gsGetBucket, hb, hname]
  have hlast : ∀ (step : CacheState → List Char → CacheState),
      (∀ st bn, (step st bn).bucket.map BucketHandle.name = some bn) →
      ∀ (names : List (List Char)) (st : CacheState), names ≠ [] →
        (runGetBucket step st names).bucket.map BucketHandle.name = names.getLast? := by
    intro step hstep names
    induction names with
    | nil => intro st h; exact absurd rfl h
    | cons x rest ih =>
      intro st _
      cases rest with
      | nil => simpa [runGetBucket] using hstep st x
      | cons y rest' =>
        have h2 := ih (step st x) (by simp)
        rw [List.getLast?_cons_cons]
        simpa [runGetBucket] using h2
  refine ⟨?_, ?_, ?_⟩
  · intro bn g c
    constructor
    · rw [s3GetBucket, if_neg (by simp)]
    · simp [gsGetBucket]
  · intro b c bn hne
    constructor
    · rw [s3GetBucket, if_pos (Or.inr (by simp [hne]))]
    · simp [gsGetBucket, hne]
  · intro st names hne
    exact ⟨hlast s3GetBucket hs3step names st hne, hlast gsGetBucket hgsstep names st hne⟩

theorem claim_C9_witness :
    (s3GetBucket ⟨some ⟨"a".data, 0⟩, 1⟩ "a".data = ⟨some ⟨"a".data, 0⟩, 1⟩ ∧
     gsGetBucket ⟨some ⟨"a".data, 0⟩, 1⟩ "a".data = ⟨some ⟨"a".data, 0⟩, 1⟩) ∧
    (s3GetBucket ⟨some ⟨"a".data, 0⟩, 1⟩ "b".data = ⟨some ⟨"b".data, 1⟩, 2⟩ ∧
     gsGetBucket ⟨some ⟨"a".data, 0⟩, 1⟩ "b".data = ⟨some ⟨"b".data, 1⟩, 2⟩) ∧
    ((runGetBucket s3GetBucket ⟨none, 0⟩ ["a".data, "b".data, "a".data]).bucket.map
        BucketHandle.name = ["a".data, "b".data, "a".data].getLast? ∧
     (runGetBucket gsGetBucket ⟨none, 0⟩ ["a".data, "b".data, "a".data]).bucket.map
        BucketHandle.name = ["a".data, "b".data, "a".data].getLast?) :=
  ⟨claim_C9.1 "a".data 0 1,
   claim_C9.2.1 ⟨"a".data, 0⟩ 1 "b".data (by decide),
   claim_C9.2.2 ⟨none, 0⟩ ["a".data, "b".data, "a".data] (by decide)⟩

/-- C4 (code-bug evidence): for a malformed `base_dst_dir` the S3
`recursive_download` logs the invalid-input error but — missing the
`return` its sibling entry points `download` and `list` have after the
same check — still invokes `self.list` and proceeds until the non-string
destination raises on the first object; the Google variant performs no
input check at all and also reaches the listing.  The claim's required
behaviour (abort immediately, no listing attempted) does not hold. -/
theorem claim_C4 :
    (s3RecursiveDownload id (Except.ok [⟨"b".data, "p/f.tif".data, 1⟩]) (fun _ _ => .ok 0)
        "s3://b/p".data PyArg.nonStr true false none none none []).invalidInputLogged
      = true ∧
    (s3RecursiveDownload id (Except.ok [⟨"b".data, "p/f.tif".data, 1⟩]) (fun _ _ => .ok 0)
        "s3://b/p".data PyArg.nonStr true false none none none []).listingAttempted
      = true ∧
    (s3RecursiveDownload id (Except.ok [⟨"b".data, "p/f.tif".data, 1⟩]) (fun _ _ => .ok 0)
        "s3://b/p".data PyArg.nonStr true false none none none []).raised = true ∧
    (gsRecursiveDownload id (Except.ok [⟨"p/f.tif".data, 1⟩]) (fun _ _ => .ok 0)
        "gs://b/p".data PyArg.nonStr true false none none none []).invalidInputLogged
      = false ∧
    (gsRecursiveDownload id (Except.ok [⟨"p/f.tif".data, 1⟩]) (fun _ _ => .ok 0)
        "gs://b/p".data PyArg.nonStr true false none none none []).listingAttempted
      = true ∧
    (gsRecursiveDownload id (Except.ok [⟨"p/f.tif".data, 1⟩]) (fun _ _ => .ok 0)
        "gs://b/p".data PyArg.nonStr true false none none none []).raised = true := by
  decide
